import Mathlib

/-!
# autojump-go: the weight store and the matcher

A shallow embedding of `main.go`: the `Data` store (`Load`, `Close`, `Add`)
and `Match`.

* A Go `map[string]float64` is an association list with its entries in the
  order in which one `range` loop enumerates them; Go leaves that order
  unspecified, so statements about a store quantify over every order.
* A `float64` is `Float64`: NaN, the two infinities and the finite values.
  Finite values are rationals, a superset of the binary64 values; `-0` and
  `+0` compare equal in Go and are one value here.
* The open file `fp` is its offset: `Load` reads the file to its end, and
  `Close` is the content it leaves in the file, written from that offset on.
* The Go standard library (`strconv.ParseFloat`, `fmt.Sprintf`, `math.Sqrt`,
  `math.Pow`, float addition with its rounding) and the package
  `github.com/sahilm/fuzzy` are not part of the repository: they are
  parameters of the definitions that call them.
-/

namespace Autojump

/-! ## float64 -/

/-- Values of Go's `float64`, as far as comparison can tell them apart. -/
inductive Float64 where
  | nan : Float64
  | ninf : Float64
  | fin (q : ℚ) : Float64
  | pinf : Float64
  deriving DecidableEq

namespace Float64

instance instOfNat (n : Nat) : OfNat Float64 n := ⟨fin n⟩

/-- Go's `a > b` on float64: false whenever an operand is NaN. -/
def gt : Float64 → Float64 → Bool
  | nan, _ => false
  | _, nan => false
  | ninf, _ => false
  | fin _, ninf => true
  | fin a, fin b => decide (b < a)
  | fin _, pinf => false
  | pinf, pinf => false
  | pinf, _ => true

/-- Go's `a >= b` on float64: false whenever an operand is NaN. -/
def ge : Float64 → Float64 → Bool
  | nan, _ => false
  | _, nan => false
  | ninf, ninf => true
  | ninf, _ => false
  | fin _, ninf => true
  | fin a, fin b => decide (b ≤ a)
  | fin _, pinf => false
  | pinf, _ => true

end Float64

/-! ## Library operations taken as parameters -/

/-- The standard-library operations `main.go` calls on float64 values. -/
structure GoLib where
  /-- Models `strconv.ParseFloat(s, 64)`: the value, and whether `err != nil`. -/
  ParseFloat : String → Float64 × Bool
  /-- Models `fmt.Sprintf("%.3f", v)`. -/
  Sprintf3 : Float64 → String
  /-- Models `math.Sqrt`. -/
  Sqrt : Float64 → Float64
  /-- Models `math.Pow`. -/
  Pow : Float64 → Float64 → Float64
  /-- Models float64 addition. -/
  add : Float64 → Float64 → Float64

/-- The fields of `fuzzy.Match` that the ranking and `Match` read. -/
structure FuzzyMatch where
  Str : String
  Score : Int
  deriving DecidableEq

/-! ## Go maps and strings -/

/-- Models `m[k]` with the comma-ok form: the value bound to `k`, if any. -/
def mapLookup : List (String × Float64) → String → Option Float64
  | [], _ => none
  | (k', v') :: m, k => if k' = k then some v' else mapLookup m k

/-- Models `m[k] = v`: overwrite the binding of `k`, or add one. -/
def mapSet : List (String × Float64) → String → Float64 → List (String × Float64)
  | [], k, v => [(k, v)]
  | (k', v') :: m, k, v => if k' = k then (k', v) :: m else (k', v') :: mapSet m k v

/-- Models `strings.Split(s, sep)` for a one-character separator. -/
def splitChars (sep : Char) : List Char → List (List Char)
  | [] => [[]]
  | c :: cs =>
    if c = sep then [] :: splitChars sep cs
    else match splitChars sep cs with
      | [] => [[c]]
      | h :: t => (c :: h) :: t

/-- Models `strings.SplitN(s, sep, 2)` for a one-character separator. -/
def splitFirst (sep : Char) : List Char → List (List Char)
  | [] => [[]]
  | c :: cs =>
    if c = sep then [[], cs]
    else match splitFirst sep cs with
      | h :: t => (c :: h) :: t
      | [] => [[c]]

/-! ## The store -/

/-- Models `Data`: the `value` map, and of the open file `fp` its offset, the
position in bytes at which the next read or write takes place. -/
structure Data where
  value : List (String × Float64)
  fp : Nat
  deriving DecidableEq

namespace Data

/-- Models `Data{value: make(map[string]float64)}`, no file opened yet. -/
def empty : Data := ⟨[], 0⟩

/-- Models the expression `d.value[path]`: the zero value for a missing key. -/
def get (d : Data) (path : String) : Float64 :=
  (mapLookup d.value path).getD 0

/-- Models `Data.Load` on a file that holds `content`: `b.ReadFrom(d.fp)`
reads the file to its end, which leaves the offset of `fp` at the size of the
file, and the loop parses the lines; `none` is the index-out-of-range
failure of `s[1]`. -/
def Load (L : GoLib) (content : String) (d : Data) : Option Data :=
  let lines := splitChars '\n' content.data
  (lines.take (lines.length - 1)).foldlM
    (fun (d : Data) (line : List Char) =>
      match splitFirst ',' line with
      | s0 :: s1 :: _ =>
        let weight := (L.ParseFloat (String.mk s0)).1
        some ⟨mapSet d.value (String.mk s1) weight, d.fp⟩
      | _ => none)
    ⟨d.value, content.utf8ByteSize⟩

/-- Models `Data.Close` by the content it leaves in the file.
`d.fp.Truncate(0)` empties the file and does not move the offset of `fp`, and
no seek follows, so the lines are written from that offset on and the bytes
before it read as NUL. -/
def Close (L : GoLib) (d : Data) : String :=
  d.value.foldl (fun out kv => out ++ (L.Sprintf3 kv.2 ++ "," ++ kv.1 ++ "\n"))
    (String.mk (List.replicate d.fp (Char.ofNat 0)))

/-- Models `Data.Add`. -/
def Add (L : GoLib) (d : Data) (path : String) : Data :=
  match mapLookup d.value path with
  | none => ⟨mapSet d.value path 0, d.fp⟩
  | some _ => ⟨mapSet d.value path (L.Sqrt (L.add (L.Pow (d.get path) 2) 100)), d.fp⟩

/-- Models `Data.GetPaths`, and the first loop of `Match`. -/
def GetPaths (d : Data) : List String :=
  d.value.map Prod.fst

end Data

/-! ## The matcher -/

/-- One iteration of the selection loop of `Match` on the pair
`(bestChoice, maxWeights)`. -/
def matchStep (data : Data) (st : String × Float64) (m : FuzzyMatch) : String × Float64 :=
  let weight := data.get m.Str
  if weight.gt st.2 then (m.Str, weight) else st

/-- Models `Match`; `Find` stands for `fuzzy.Find`. -/
def Match (Find : String → List String → List FuzzyMatch) (input : String) (data : Data) :
    String :=
  let paths := data.GetPaths
  let mtch := Find input paths
  let maxNum := if mtch.length > 10 then 10 else mtch.length
  ((mtch.take maxNum).foldl (matchStep data) (".", 0)).1

/-! ## The fuzzy matcher

`fuzzy.Find` belongs to `github.com/sahilm/fuzzy`, which is not part of the
repository. `Match` above takes it as a parameter. Where a statement depends
on what the matcher returns, the matcher is the one the specification
describes: a path qualifies when the query is a subsequence of it, each
qualifying path gets a score, and the result is ranked by score, descending,
by a stable sort. The character comparison `eqv` ("case-sensitivity per the
underlying match rule") and the scoring function are parameters. -/

/-- Modelled from the spec: the qualification rule of the external matcher
`fuzzy.Find`: every character of the query, in order, appears in the
candidate, not necessarily contiguously. -/
def isSubseqBy (eqv : Char → Char → Bool) : List Char → List Char → Bool
  | [], _ => true
  | _ :: _, [] => false
  | q :: qs, c :: cs =>
    if eqv q c then isSubseqBy eqv qs cs else isSubseqBy eqv (q :: qs) cs

/-- Modelled from the spec: the external matcher `fuzzy.Find`: keep the
qualifying paths, score them, rank by score descending with a stable sort. -/
def fuzzyFind (eqv : Char → Char → Bool) (score : String → String → Int)
    (input : String) (paths : List String) : List FuzzyMatch :=
  ((paths.filter (fun p => isSubseqBy eqv input.data p.data)).map
    (fun p => (⟨p, score input p⟩ : FuzzyMatch))).insertionSort
    (fun a b => b.Score ≤ a.Score)

/-- Exact character comparison. -/
def exactEq (a b : Char) : Bool := decide (a = b)

/-- A concrete score used in examples: one penalty point per character of
the candidate that the query leaves unmatched. -/
def lengthScore (input path : String) : Int :=
  (input.length : Int) - (path.length : Int)

/-! ## A reference instance of the library operations

Used to evaluate the definitions on concrete inputs. It computes with exact
rationals: plain decimal literals, `NaN` and the infinities are parsed, any
other text is a syntax error with value 0, as `strconv.ParseFloat` reports
it. -/

/-- The value of a non-empty string of decimal digits. -/
def digitsVal : List Char → Option Nat
  | [] => none
  | cs => cs.foldlM (fun (n : Nat) (c : Char) =>
      if c.isDigit then some (10 * n + (c.toNat - 48)) else none) 0

/-- An unsigned decimal literal `ddd` or `ddd.ddd`. -/
def decimalVal (cs : List Char) : Option ℚ :=
  match splitFirst '.' cs with
  | [i] => (digitsVal i).map (fun n => (n : ℚ))
  | [i, f] =>
    match digitsVal i, digitsVal f with
    | some n, some m => some ((n : ℚ) + (m : ℚ) / (10 ^ f.length : Nat))
    | _, _ => none
  | _ => none

/-- Reference `strconv.ParseFloat` on plain decimal literals. -/
def refParseFloat (s : String) : Float64 × Bool :=
  if s = "NaN" then (Float64.nan, false)
  else if s = "+Inf" ∨ s = "Inf" then (Float64.pinf, false)
  else if s = "-Inf" then (Float64.ninf, false)
  else match s.data with
    | '-' :: cs =>
      match decimalVal cs with
      | some q => (Float64.fin (-q), false)
      | none => (0, true)
    | '+' :: cs =>
      match decimalVal cs with
      | some q => (Float64.fin q, false)
      | none => (0, true)
    | cs =>
      match decimalVal cs with
      | some q => (Float64.fin q, false)
      | none => (0, true)

/-- Round a non-negative rational to the nearest integer, ties to even. -/
def roundHalfEven (q : ℚ) : Nat :=
  let f := (q.num / q.den).toNat
  let r := q - f
  if r < 1 / 2 then f
  else if 1 / 2 < r then f + 1
  else if f % 2 = 0 then f else f + 1

/-- Exactly three decimal digits of a number below 1000. -/
def pad3 (n : Nat) : String :=
  String.mk [Char.ofNat (48 + n / 100 % 10), Char.ofNat (48 + n / 10 % 10),
    Char.ofNat (48 + n % 10)]

/-- Reference `fmt.Sprintf("%.3f", v)`. -/
def refSprintf3 : Float64 → String
  | Float64.nan => "NaN"
  | Float64.pinf => "+Inf"
  | Float64.ninf => "-Inf"
  | Float64.fin q =>
    let t := roundHalfEven (|q| * 1000)
    (if q < 0 then "-" else "") ++ Nat.repr (t / 1000) ++ "." ++ pad3 (t % 1000)

/-- Integer square root by bisection on the bits of the result. -/
def isqrtLoop (n : Nat) : Nat → Nat → Nat
  | 0, r => r
  | b + 1, r => if (r + 2 ^ b) * (r + 2 ^ b) ≤ n then isqrtLoop n b (r + 2 ^ b)
      else isqrtLoop n b r

/-- The floor of the square root. -/
def isqrt (n : Nat) : Nat := isqrtLoop n (n.log2 / 2 + 1) 0

/-- Reference `math.Sqrt`: exact on squares of rationals, otherwise truncated
to six decimals. -/
def refSqrt : Float64 → Float64
  | Float64.nan => Float64.nan
  | Float64.ninf => Float64.nan
  | Float64.pinf => Float64.pinf
  | Float64.fin q =>
    if q < 0 then Float64.nan
    else
      let a := isqrt q.num.toNat
      let b := isqrt q.den
      if a * a = q.num.toNat ∧ b * b = q.den then Float64.fin ((a : ℚ) / (b : ℚ))
      else Float64.fin ((isqrt (q.num.toNat * q.den * 10 ^ 12) : ℚ) / ((q.den * 10 ^ 6 : Nat) : ℚ))

/-- Reference `math.Pow` for the exponent 2, the only one `main.go` uses. -/
def refPow : Float64 → Float64 → Float64
  | Float64.fin a, Float64.fin b => if b = 2 then Float64.fin (a * a) else Float64.nan
  | Float64.pinf, Float64.fin b => if b = 2 then Float64.pinf else Float64.nan
  | Float64.ninf, Float64.fin b => if b = 2 then Float64.pinf else Float64.nan
  | _, _ => Float64.nan

/-- Reference float64 addition, without rounding. -/
def refAdd : Float64 → Float64 → Float64
  | Float64.nan, _ => Float64.nan
  | _, Float64.nan => Float64.nan
  | Float64.fin a, Float64.fin b => Float64.fin (a + b)
  | Float64.pinf, Float64.ninf => Float64.nan
  | Float64.ninf, Float64.pinf => Float64.nan
  | Float64.pinf, _ => Float64.pinf
  | _, Float64.pinf => Float64.pinf
  | Float64.ninf, _ => Float64.ninf
  | _, Float64.ninf => Float64.ninf

/-- The reference instance. -/
def refLib : GoLib where
  ParseFloat := refParseFloat
  Sprintf3 := refSprintf3
  Sqrt := refSqrt
  Pow := refPow
  add := refAdd

/-- The data file of `main_test.go`. -/
def testDataContent : String :=
  "10.000,/Users/xiaotan/Toy/pdfminer/pdfminer\n" ++
  "14.142,/Users/xiaotan/.vim/plugged/YouCompleteMe/python/ycm\n" ++
  "14.142,/Users/xiaotan/Toy/tx/build/lib\n" ++
  "10.000,/Users/xiaotan/.local/venvs\n" ++
  "22.361,/Users/xiaotan/Work/slate\n" ++
  "14.142,/Users/xiaotan/Toy/tx/elasticsearch-py\n" ++
  "10.000,/Users/ycm/test\n"

/-- The store `Load` builds from the data file of `main_test.go`. -/
def testStore : Data :=
  ⟨[("/Users/xiaotan/Toy/pdfminer/pdfminer", Float64.fin 10),
    ("/Users/xiaotan/.vim/plugged/YouCompleteMe/python/ycm", Float64.fin (14142 / 1000)),
    ("/Users/xiaotan/Toy/tx/build/lib", Float64.fin (14142 / 1000)),
    ("/Users/xiaotan/.local/venvs", Float64.fin 10),
    ("/Users/xiaotan/Work/slate", Float64.fin (22361 / 1000)),
    ("/Users/xiaotan/Toy/tx/elasticsearch-py", Float64.fin (14142 / 1000)),
    ("/Users/ycm/test", Float64.fin 10)], testDataContent.utf8ByteSize⟩

/-- Eleven paths of equal length, of weights 1 to 11 in this order. -/
def elevenPaths : List (String × Float64) :=
  [("/ab/0", Float64.fin 1), ("/ab/1", Float64.fin 2), ("/ab/2", Float64.fin 3),
   ("/ab/3", Float64.fin 4), ("/ab/4", Float64.fin 5), ("/ab/5", Float64.fin 6),
   ("/ab/6", Float64.fin 7), ("/ab/7", Float64.fin 8), ("/ab/8", Float64.fin 9),
   ("/ab/9", Float64.fin 10), ("/ab/a", Float64.fin 11)]

/-! ## Notions used in the statements -/

/-- The candidates the loop of `Match` visits: `matches[:maxNum]`. -/
def topTen (Find : String → List String → List FuzzyMatch) (input : String) (data : Data) :
    List FuzzyMatch :=
  (Find input data.GetPaths).take 10

/-- The value of `maxWeights` when the loop of `Match` ends. -/
def maxWeights (Find : String → List String → List FuzzyMatch) (input : String)
    (data : Data) : Float64 :=
  ((topTen Find input data).foldl (matchStep data) (".", 0)).2

/-- The lines `Load` iterates over: `lines[:len(lines)-1]`. -/
def fileLines (content : String) : List (List Char) :=
  (splitChars '\n' content.data).take ((splitChars '\n' content.data).length - 1)

/-- The weight field `s[0]` of a line. -/
def weightField (line : List Char) : String :=
  String.mk ((splitFirst ',' line).headD [])

/-- The body of the loop of `Load`. -/
def loadLine (L : GoLib) (d : Data) (line : List Char) : Option Data :=
  match splitFirst ',' line with
  | s0 :: s1 :: _ =>
    some ⟨mapSet d.value (String.mk s1) (L.ParseFloat (String.mk s0)).1, d.fp⟩
  | _ => none

/-- Every weight of the map is `>= 0`. -/
def NonNeg (m : List (String × Float64)) : Prop :=
  ∀ p w, mapLookup m p = some w → w.ge 0 = true

/-- The characters of the line `Close` writes for one entry. -/
def lineChars (L : GoLib) (kv : String × Float64) : List Char :=
  (L.Sprintf3 kv.2).data ++ ',' :: kv.1.data

/-- Reference rounding of a weight to three decimals, ties to even. -/
def refRound3 : Float64 → Float64
  | Float64.fin q =>
    if q < 0 then Float64.fin (-((roundHalfEven (|q| * 1000) : ℚ) / 1000))
    else Float64.fin ((roundHalfEven (|q| * 1000) : ℚ) / 1000)
  | w => w

/-! ## Comparison of float64 values -/

theorem Float64.gt_irrefl (a : Float64) : a.gt a = false := by
  cases a <;> simp [Float64.gt]

theorem Float64.gt_trans {a b c : Float64} (hab : a.gt b = true) (hbc : b.gt c = true) :
    a.gt c = true := by
  cases a <;> cases b <;> cases c <;> simp_all [Float64.gt]
  exact lt_trans hbc hab

theorem Float64.not_gt_of_ge {a b : Float64} (h : a.ge b = true) : b.gt a = false := by
  cases a <;> cases b <;> simp_all [Float64.gt, Float64.ge]

theorem Float64.gt_of_ge_of_ne {a b : Float64} (h : a.ge b = true) (hne : b ≠ a) :
    a.gt b = true := by
  cases a <;> cases b <;> simp_all [Float64.gt, Float64.ge]
  exact lt_of_le_of_ne h hne

theorem Float64.ge_of_not_gt {a b : Float64} (ha : a ≠ Float64.nan) (hb : b ≠ Float64.nan)
    (h : b.gt a = false) : a.ge b = true := by
  cases a <;> cases b <;> simp_all [Float64.gt, Float64.ge]

theorem Float64.ne_nan_of_gt {a b : Float64} (h : a.gt b = true) : a ≠ Float64.nan := by
  cases a <;> simp_all [Float64.gt]

/-! ## The qualification rule -/

/-- With exact character comparison the qualification rule is the
subsequence relation on the characters of the two strings. -/
theorem isSubseqBy_exactEq_iff (q p : List Char) :
    isSubseqBy exactEq q p = true ↔ List.Sublist q p := by
  induction p generalizing q with
  | nil =>
    cases q with
    | nil => simp [isSubseqBy]
    | cons a qs => simp [isSubseqBy]
  | cons c cs ih =>
    cases q with
    | nil => simp [isSubseqBy]
    | cons a qs =>
      by_cases hac : a = c
      · subst hac
        simp [isSubseqBy, exactEq, ih, List.cons_sublist_cons]
      · have hstep : isSubseqBy exactEq (a :: qs) (c :: cs) = isSubseqBy exactEq (a :: qs) cs := by
          simp [isSubseqBy, exactEq, hac]
        rw [hstep, ih, List.sublist_cons_iff]
        constructor
        · exact fun h => Or.inl h
        · rintro (h | ⟨r, hr, _⟩)
          · exact h
          · exact absurd (List.cons.inj hr).1 hac

/-! ## The selection loop of `Match` -/

theorem take_maxNum {α : Type} (l : List α) :
    l.take (if l.length > 10 then 10 else l.length) = l.take 10 := by
  split
  · rfl
  · rw [List.take_length]
    exact (List.take_of_length_le (by omega)).symm

theorem Match_eq_foldl (Find : String → List String → List FuzzyMatch) (input : String)
    (data : Data) :
    Match Find input data = ((topTen Find input data).foldl (matchStep data) (".", 0)).1 := by
  unfold Match topTen
  simp only [take_maxNum]

/-- A candidate list without a weight above the current maximum leaves the
state of the loop unchanged. -/
theorem foldl_matchStep_of_not_gt (data : Data) (l : List FuzzyMatch) (st : String × Float64)
    (h : ∀ m ∈ l, (data.get m.Str).gt st.2 = false) :
    l.foldl (matchStep data) st = st := by
  induction l with
  | nil => rfl
  | cons m l ih =>
    have hm : (data.get m.Str).gt st.2 = false := h m (List.mem_cons_self _ _)
    have hstep : matchStep data st m = st := by simp [matchStep, hm]
    rw [List.foldl_cons, hstep]
    exact ih (fun m' hm' => h m' (List.mem_cons_of_mem _ hm'))

/-- The loop either keeps its state or ends on a candidate of the list whose
weight is above the initial maximum. -/
theorem foldl_matchStep_cases (data : Data) (l : List FuzzyMatch) (st : String × Float64) :
    l.foldl (matchStep data) st = st ∨
      ∃ m ∈ l, l.foldl (matchStep data) st = (m.Str, data.get m.Str) ∧
        (data.get m.Str).gt st.2 = true := by
  induction l generalizing st with
  | nil => exact Or.inl rfl
  | cons m l ih =>
    rw [List.foldl_cons]
    by_cases hm : (data.get m.Str).gt st.2 = true
    · have hstep : matchStep data st m = (m.Str, data.get m.Str) := by simp [matchStep, hm]
      rw [hstep]
      rcases ih (m.Str, data.get m.Str) with h | ⟨m', hm', heq, hgt⟩
      · exact Or.inr ⟨m, List.mem_cons_self _ _, h, hm⟩
      · exact Or.inr ⟨m', List.mem_cons_of_mem _ hm', heq, Float64.gt_trans hgt hm⟩
    · have hstep : matchStep data st m = st := by simp [matchStep, hm]
      rw [hstep]
      rcases ih st with h | ⟨m', hm', heq, hgt⟩
      · exact Or.inl h
      · exact Or.inr ⟨m', List.mem_cons_of_mem _ hm', heq, hgt⟩

/-- No candidate of the list has a weight above the final maximum. -/
theorem foldl_matchStep_max (data : Data) (l : List FuzzyMatch) (st : String × Float64) :
    ∀ m ∈ l, (data.get m.Str).gt (l.foldl (matchStep data) st).2 = false := by
  induction l generalizing st with
  | nil => intro m hm; cases hm
  | cons m l ih =>
    intro m' hm'
    rw [List.foldl_cons]
    rcases List.mem_cons.mp hm' with rfl | hin
    · -- the head: the final maximum is the maximum after the head, or above it
      have hfin := foldl_matchStep_cases data l (matchStep data st m')
      by_cases hm : (data.get m'.Str).gt st.2 = true
      · have hstep : matchStep data st m' = (m'.Str, data.get m'.Str) := by
          simp [matchStep, hm]
        rw [hstep] at hfin ⊢
        rcases hfin with h | ⟨m2, _, heq, hgt⟩
        · rw [h]; exact Float64.gt_irrefl _
        · rw [heq]
          by_contra hc
          have hc' : (data.get m'.Str).gt (data.get m2.Str) = true := by simpa using hc
          have := Float64.gt_trans hc' hgt
          rw [Float64.gt_irrefl] at this
          cases this
      · have hstep : matchStep data st m' = st := by simp [matchStep, hm]
        rw [hstep] at hfin ⊢
        rcases hfin with h | ⟨m2, _, heq, hgt⟩
        · rw [h]; simpa using hm
        · rw [heq]
          by_contra hc
          have hc' : (data.get m'.Str).gt (data.get m2.Str) = true := by simpa using hc
          exact hm (Float64.gt_trans hc' hgt)
    · exact ih (matchStep data st m) m' hin

/-- When the selected candidates all carry the path `p` and `p` has a
positive weight, the loop ends on `p`. -/
theorem foldl_matchStep_const (data : Data) (p : String) (l : List FuzzyMatch)
    (hne : l ≠ []) (hall : ∀ m ∈ l, m.Str = p) (hw : (data.get p).gt 0 = true) :
    (l.foldl (matchStep data) (".", 0)).1 = p := by
  cases l with
  | nil => exact absurd rfl hne
  | cons m l =>
    have hm : m.Str = p := hall m (List.mem_cons_self _ _)
    have hstep : matchStep data (".", 0) m = (p, data.get p) := by
      simp [matchStep, hm, hw]
    rw [List.foldl_cons, hstep, foldl_matchStep_of_not_gt]
    intro m' hm'
    rw [hall m' (List.mem_cons_of_mem _ hm')]
    exact Float64.gt_irrefl _

/-- With a positive maximum `M` above the running maximum, the loop ends on
the first candidate of weight `M`. -/
theorem foldl_matchStep_first (data : Data) (M : Float64) (l : List FuzzyMatch)
    (st : String × Float64) (hst : M.gt st.2 = true)
    (hex : ∃ m ∈ l, data.get m.Str = M)
    (hmax : ∀ m ∈ l, M.ge (data.get m.Str) = true) :
    (l.find? (fun m => decide (data.get m.Str = M))).map FuzzyMatch.Str =
      some (l.foldl (matchStep data) st).1 := by
  induction l generalizing st with
  | nil => obtain ⟨m, hm, _⟩ := hex; cases hm
  | cons m l ih =>
    rw [List.foldl_cons]
    by_cases hm : data.get m.Str = M
    · have hstep : matchStep data st m = (m.Str, M) := by
        simp [matchStep, hm, hst]
      rw [hstep, foldl_matchStep_of_not_gt]
      · simp [List.find?, hm]
      · intro m' hm'
        exact Float64.not_gt_of_ge (hmax m' (List.mem_cons_of_mem _ hm'))
    · have hgt : M.gt (data.get m.Str) = true :=
        Float64.gt_of_ge_of_ne (hmax m (List.mem_cons_self _ _)) hm
      have hst' : M.gt (matchStep data st m).2 = true := by
        unfold matchStep
        by_cases hc : (data.get m.Str).gt st.2 = true
        · simp [hc, hgt]
        · simp [hc, hst]
      have hex' : ∃ m' ∈ l, data.get m'.Str = M := by
        obtain ⟨m', hm', hw⟩ := hex
        rcases List.mem_cons.mp hm' with rfl | hin
        · exact absurd hw hm
        · exact ⟨m', hin, hw⟩
      rw [List.find?_cons_of_neg _ (by simpa using hm)]
      exact ih (matchStep data st m) hst' hex'
        (fun m' hm' => hmax m' (List.mem_cons_of_mem _ hm'))

/-- When a candidate of positive weight is among the first ten, `Match`
returns a candidate of positive weight that no other one exceeds. -/
theorem Match_selected (Find : String → List String → List FuzzyMatch)
    (input : String) (data : Data)
    (h : ∃ m ∈ topTen Find input data, (data.get m.Str).gt 0 = true) :
    ∃ m ∈ topTen Find input data, Match Find input data = m.Str ∧
      (data.get m.Str).gt 0 = true ∧
      ∀ m2 ∈ topTen Find input data, (data.get m2.Str).gt (data.get m.Str) = false := by
  have hmax := foldl_matchStep_max data (topTen Find input data) (".", 0)
  rw [Match_eq_foldl]
  rcases foldl_matchStep_cases data (topTen Find input data) (".", 0) with hst | hsel
  · exfalso
    obtain ⟨m, hm, hgt⟩ := h
    have := hmax m hm
    rw [hst] at this
    rw [hgt] at this
    cases this
  · obtain ⟨m, hm, heq, hgt⟩ := hsel
    rw [heq] at hmax ⊢
    exact ⟨m, hm, rfl, hgt, hmax⟩

/-! ## Claims about `Match` -/

/-- C1 (counterexample): with the store holding `/a` at weight NaN and `/b`
at weight 10 and the query `/`, the ranked candidates are `/a` and `/b`, one
of them has a positive weight, and `Match` returns `/b`, whose weight 10 is
not `>=` the weight NaN of the candidate `/a`. -/
theorem Match_heaviest_fails_on_nan :
    (topTen (fuzzyFind exactEq lengthScore) "/"
        ⟨[("/a", Float64.nan), ("/b", Float64.fin 10)], 0⟩).map FuzzyMatch.Str = ["/a", "/b"] ∧
    ((Data.mk [("/a", Float64.nan), ("/b", Float64.fin 10)] 0).get "/b").gt 0 = true ∧
    Match (fuzzyFind exactEq lengthScore) "/"
        ⟨[("/a", Float64.nan), ("/b", Float64.fin 10)], 0⟩ = "/b" ∧
    ((Data.mk [("/a", Float64.nan), ("/b", Float64.fin 10)] 0).get "/b").ge
        ((Data.mk [("/a", Float64.nan), ("/b", Float64.fin 10)] 0).get "/a") = false := by
  decide!

/-- C1 (amended): for every store, query and matcher, if one of the first ten
ranked candidates has a stored weight `> 0`, then `Match` returns one of the
first ten ranked candidates, its stored weight is `> 0`, no one of the first
ten has a strictly greater stored weight, and its stored weight is `>=` the
stored weight of every one of them whose weight is not NaN; candidates
ranked 11th or later play no part: a matcher with the same first ten gives
the same result. -/
theorem Match_heaviest_of_topTen (Find : String → List String → List FuzzyMatch)
    (input : String) (data : Data)
    (h : ∃ m ∈ topTen Find input data, (data.get m.Str).gt 0 = true) :
    (∃ m ∈ topTen Find input data, m.Str = Match Find input data) ∧
    (data.get (Match Find input data)).gt 0 = true ∧
    (∀ m ∈ topTen Find input data,
      (data.get m.Str).gt (data.get (Match Find input data)) = false) ∧
    (∀ m ∈ topTen Find input data, data.get m.Str ≠ Float64.nan →
      (data.get (Match Find input data)).ge (data.get m.Str) = true) ∧
    (∀ Find2 : String → List String → List FuzzyMatch,
      topTen Find2 input data = topTen Find input data →
      Match Find2 input data = Match Find input data) := by
  have hdep : ∀ Find2 : String → List String → List FuzzyMatch,
      topTen Find2 input data = topTen Find input data →
      Match Find2 input data = Match Find input data := by
    intro Find2 h2
    rw [Match_eq_foldl, Match_eq_foldl, h2]
  obtain ⟨m, hm, heq, hgt, hmax⟩ := Match_selected Find input data h
  rw [heq] at hdep ⊢
  refine ⟨⟨m, hm, rfl⟩, hgt, hmax, ?_, hdep⟩
  intro m2 hm2 hnan
  exact Float64.ge_of_not_gt (Float64.ne_nan_of_gt hgt) hnan (hmax m2 hm2)

/-- C1 (witness): on the store of the test with the query `ycm` the theorem
applies, and the path returned is the YouCompleteMe one. -/
theorem Match_heaviest_of_topTen_witness :
    (∃ m ∈ topTen (fuzzyFind exactEq lengthScore) "ycm" testStore,
        m.Str = Match (fuzzyFind exactEq lengthScore) "ycm" testStore) ∧
    Match (fuzzyFind exactEq lengthScore) "ycm" testStore =
      "/Users/xiaotan/.vim/plugged/YouCompleteMe/python/ycm" :=
  ⟨(Match_heaviest_of_topTen (fuzzyFind exactEq lengthScore) "ycm" testStore
      (by decide!)).1, by decide!⟩

/-- C2: for every store, query and matcher, if none of the first ten ranked
candidates has a stored weight `> 0`, `Match` returns the sentinel `.`. -/
theorem Match_sentinel (Find : String → List String → List FuzzyMatch)
    (input : String) (data : Data)
    (h : ∀ m ∈ topTen Find input data, (data.get m.Str).gt 0 = false) :
    Match Find input data = "." := by
  rw [Match_eq_foldl, foldl_matchStep_of_not_gt data _ _ h]

/-- C2 (witness): a store whose only candidate has weight 0. -/
theorem Match_sentinel_witness :
    (∃ m ∈ topTen (fuzzyFind exactEq lengthScore) "tmp" ⟨[("/tmp", 0)], 0⟩, m.Str = "/tmp") ∧
    Match (fuzzyFind exactEq lengthScore) "tmp" ⟨[("/tmp", 0)], 0⟩ = "." :=
  ⟨by decide!, Match_sentinel (fuzzyFind exactEq lengthScore) "tmp" ⟨[("/tmp", 0)], 0⟩
    (by decide!)⟩

/-- C9: for every store, query and matcher, when the positive weight `M` is
the maximum of the stored weights of the first ten ranked candidates and one
of them has it, `Match` returns the earliest candidate of weight `M` in the
ranked list. -/
theorem Match_tie_break (Find : String → List String → List FuzzyMatch)
    (input : String) (data : Data) (M : Float64) (hM : M.gt 0 = true)
    (hex : ∃ m ∈ topTen Find input data, data.get m.Str = M)
    (hmax : ∀ m ∈ topTen Find input data, M.ge (data.get m.Str) = true) :
    ((topTen Find input data).find? (fun m => decide (data.get m.Str = M))).map
      FuzzyMatch.Str = some (Match Find input data) := by
  rw [Match_eq_foldl]
  exact foldl_matchStep_first data M _ (".", 0) hM hex hmax

/-- C9 (witness): three candidates of equal score, the last two sharing the
maximum weight 10: the earlier of the two is returned. -/
theorem Match_tie_break_witness :
    (topTen (fuzzyFind exactEq lengthScore) "ab"
        ⟨[("/ab/z", Float64.fin 5), ("/ab/x", Float64.fin 10),
          ("/ab/y", Float64.fin 10)], 0⟩).map FuzzyMatch.Str = ["/ab/z", "/ab/x", "/ab/y"] ∧
    some "/ab/x" = some (Match (fuzzyFind exactEq lengthScore) "ab"
        ⟨[("/ab/z", Float64.fin 5), ("/ab/x", Float64.fin 10),
          ("/ab/y", Float64.fin 10)], 0⟩) :=
  ⟨by decide!, Match_tie_break (fuzzyFind exactEq lengthScore) "ab"
    ⟨[("/ab/z", Float64.fin 5), ("/ab/x", Float64.fin 10), ("/ab/y", Float64.fin 10)], 0⟩
    (Float64.fin 10) (by decide!) (by decide!) (by decide!)⟩

/-- C6: for every store and query, with the matcher the specification
describes (any character comparison, any score), if the query is a
subsequence of exactly one stored path `p` and the stored weight of `p` is
`> 0`, `Match` returns `p`. -/
theorem Match_unique_subsequence (eqv : Char → Char → Bool) (score : String → String → Int)
    (q : String) (data : Data) (p : String) (hp : p ∈ data.GetPaths)
    (hq : isSubseqBy eqv q.data p.data = true)
    (huniq : ∀ p' ∈ data.GetPaths, isSubseqBy eqv q.data p'.data = true → p' = p)
    (hw : (data.get p).gt 0 = true) :
    Match (fuzzyFind eqv score) q data = p := by
  rw [Match_eq_foldl]
  have hperm := List.perm_insertionSort (fun a b : FuzzyMatch => b.Score ≤ a.Score)
    ((data.GetPaths.filter (fun p => isSubseqBy eqv q.data p.data)).map
      (fun p => (⟨p, score q p⟩ : FuzzyMatch)))
  apply foldl_matchStep_const
  · intro hnil
    unfold topTen fuzzyFind at hnil
    rcases List.take_eq_nil_iff.mp hnil with h0 | h0
    · cases h0
    · rw [h0] at hperm
      have hmem : (⟨p, score q p⟩ : FuzzyMatch) ∈
          ((data.GetPaths.filter (fun p => isSubseqBy eqv q.data p.data)).map
            (fun p => (⟨p, score q p⟩ : FuzzyMatch))) :=
        List.mem_map.mpr ⟨p, List.mem_filter.mpr ⟨hp, hq⟩, rfl⟩
      have hmem' := hperm.mem_iff.mpr hmem
      cases hmem'
  · intro m hm
    unfold topTen fuzzyFind at hm
    have hm' := hperm.mem_iff.mp (List.mem_of_mem_take hm)
    obtain ⟨p', hp', rfl⟩ := List.mem_map.mp hm'
    have := List.mem_filter.mp hp'
    exact huniq p' this.1 this.2
  · exact hw

/-- C6 (witness): on the store of the test, `Work` is a subsequence of the
slate path only, and that path is returned. -/
theorem Match_unique_subsequence_witness :
    Match (fuzzyFind exactEq lengthScore) "Work" testStore = "/Users/xiaotan/Work/slate" :=
  Match_unique_subsequence exactEq lengthScore "Work" testStore "/Users/xiaotan/Work/slate"
    (by decide!) (by decide!) (by decide!) (by decide!)

/-! ## Map updates -/

theorem mapLookup_mapSet_same (m : List (String × Float64)) (k : String) (v : Float64) :
    mapLookup (mapSet m k v) k = some v := by
  induction m with
  | nil => simp [mapSet, mapLookup]
  | cons kv m ih =>
    obtain ⟨k', v'⟩ := kv
    by_cases h : k' = k
    · simp [mapSet, mapLookup, h]
    · simp [mapSet, mapLookup, h, ih]

theorem mapLookup_mapSet_other (m : List (String × Float64)) (k : String) (v : Float64)
    (q : String) (hq : q ≠ k) : mapLookup (mapSet m k v) q = mapLookup m q := by
  induction m with
  | nil => simp [mapSet, mapLookup, Ne.symm hq]
  | cons kv m ih =>
    obtain ⟨k', v'⟩ := kv
    by_cases h : k' = k
    · subst h
      simp [mapSet, mapLookup, Ne.symm hq]
    · by_cases h' : k' = q
      · subst h'
        simp [mapSet, mapLookup, h]
      · simp [mapSet, mapLookup, h, h', ih]

theorem keys_mapSet_of_some (m : List (String × Float64)) (k : String) (v w : Float64)
    (h : mapLookup m k = some w) : (mapSet m k v).map Prod.fst = m.map Prod.fst := by
  induction m with
  | nil => simp [mapLookup] at h
  | cons kv m ih =>
    obtain ⟨k', v'⟩ := kv
    by_cases hk : k' = k
    · simp [mapSet, hk]
    · simp only [mapLookup, hk, if_false] at h
      simp [mapSet, hk, ih h]

theorem mapSet_of_none (m : List (String × Float64)) (k : String) (v : Float64)
    (h : mapLookup m k = none) : mapSet m k v = m ++ [(k, v)] := by
  induction m with
  | nil => rfl
  | cons kv m ih =>
    obtain ⟨k', v'⟩ := kv
    by_cases hk : k' = k
    · simp [mapLookup, hk] at h
    · simp only [mapLookup, hk, if_false] at h
      simp [mapSet, hk, ih h]

theorem mapLookup_eq_none_iff (m : List (String × Float64)) (k : String) :
    mapLookup m k = none ↔ k ∉ m.map Prod.fst := by
  induction m with
  | nil => simp [mapLookup]
  | cons kv m ih =>
    obtain ⟨k', v'⟩ := kv
    by_cases hk : k' = k
    · simp [mapLookup, hk]
    · simp [mapLookup, hk, ih, Ne.symm hk]

theorem Add_of_none (L : GoLib) (d : Data) (p : String) (h : mapLookup d.value p = none) :
    d.Add L p = ⟨mapSet d.value p 0, d.fp⟩ := by
  simp [Data.Add, h]

theorem Add_of_some (L : GoLib) (d : Data) (p : String) (w : Float64)
    (h : mapLookup d.value p = some w) :
    d.Add L p = ⟨mapSet d.value p (L.Sqrt (L.add (L.Pow w 2) 100)), d.fp⟩ := by
  have hget : d.get p = w := by simp [Data.get, h]
  simp [Data.Add, h, hget]

/-! ## Claims about `Add` -/

/-- C3: for every store and every path `p` bound to the weight `w`, `Add p`
leaves the list of keys unchanged, binds `p` to `Sqrt (Pow w 2 + 100)` and
leaves the weight of every other path unchanged; and, the library computing
`Pow 0 2 = 0`, `0 + 100 = 100` and `Sqrt 100 = 10` exactly, two consecutive
`Add`s of a path absent from the store leave it at weight exactly 10. -/
theorem Add_known_path (L : GoLib) (hPow : L.Pow 0 2 = 0) (hAdd : L.add 0 100 = 100)
    (hSqrt : L.Sqrt 100 = 10) (d : Data) (p : String) :
    (∀ w, mapLookup d.value p = some w →
      (d.Add L p).GetPaths = d.GetPaths ∧
      mapLookup (d.Add L p).value p = some (L.Sqrt (L.add (L.Pow w 2) 100)) ∧
      ∀ q, q ≠ p → mapLookup (d.Add L p).value q = mapLookup d.value q) ∧
    (mapLookup d.value p = none →
      mapLookup ((d.Add L p).Add L p).value p = some 10) := by
  constructor
  · intro w hw
    rw [Add_of_some L d p w hw]
    refine ⟨?_, ?_, ?_⟩
    · exact keys_mapSet_of_some d.value p _ w hw
    · exact mapLookup_mapSet_same d.value p _
    · intro q hq
      exact mapLookup_mapSet_other d.value p _ q hq
  · intro hnone
    have hlook : mapLookup (d.Add L p).value p = some 0 := by
      rw [Add_of_none L d p hnone]; exact mapLookup_mapSet_same d.value p 0
    rw [Add_of_some L (d.Add L p) p 0 hlook, hPow, hAdd, hSqrt]
    exact mapLookup_mapSet_same _ p 10

/-- C3 (witness): the two `Add`s of `add_new_dir` in `TestDataAdd`, with the
reference library, on the store of the test. -/
theorem Add_known_path_witness :
    mapLookup ((testStore.Add refLib "add_new_dir").Add refLib "add_new_dir").value
      "add_new_dir" = some 10 :=
  (Add_known_path refLib (by decide!) (by decide!) (by decide!) testStore "add_new_dir").2
    (by decide!)

/-- C4: for every store and every path `p` that is not a key, `Add p` yields
a store in which `p` has weight exactly 0, every path present before keeps
its weight, and the keys are the former keys and `p`. -/
theorem Add_unknown_path (L : GoLib) (d : Data) (p : String)
    (h : mapLookup d.value p = none) :
    mapLookup (d.Add L p).value p = some 0 ∧
    (∀ q w, mapLookup d.value q = some w → mapLookup (d.Add L p).value q = some w) ∧
    (d.Add L p).GetPaths = d.GetPaths ++ [p] := by
  rw [Add_of_none L d p h]
  refine ⟨mapLookup_mapSet_same d.value p 0, ?_, ?_⟩
  · intro q w hq
    have hne : q ≠ p := by
      rintro rfl
      rw [h] at hq
      cases hq
    show mapLookup (mapSet d.value p 0) q = some w
    rw [mapLookup_mapSet_other d.value p 0 q hne, hq]
  · show (mapSet d.value p 0).map Prod.fst = d.value.map Prod.fst ++ [p]
    rw [mapSet_of_none d.value p 0 h]
    simp

/-- C4 (witness): `Add` of a new directory to the store of the test. -/
theorem Add_unknown_path_witness :
    mapLookup (testStore.Add refLib "add_new_dir").value "add_new_dir" = some 0 :=
  (Add_unknown_path refLib testStore "add_new_dir" (by decide!)).1

/-! ## Claims about `Load` -/

theorem Load_eq_foldlM (L : GoLib) (content : String) (d : Data) :
    Data.Load L content d =
      (fileLines content).foldlM (loadLine L) ⟨d.value, content.utf8ByteSize⟩ := rfl

/-- C7 (failing input): a line without a comma makes `Load` fail with an
index out of range, whatever the library and the store; one such file is
what `Close` writes after `Add` of a path that contains a newline. -/
theorem Load_fails_on_line_without_comma :
    (∀ (L : GoLib) (d : Data), Data.Load L "abc\n" d = none) ∧
    Data.Close refLib (Data.empty.Add refLib "a\nb") = "0.000,a\nb\n" ∧
    Data.Load refLib (Data.Close refLib (Data.empty.Add refLib "a\nb")) Data.empty = none := by
  refine ⟨fun L d => rfl, by decide!, by decide!⟩

theorem NonNeg_mapSet (m : List (String × Float64)) (k : String) (v : Float64)
    (hm : NonNeg m) (hv : v.ge 0 = true) : NonNeg (mapSet m k v) := by
  intro p w hp
  by_cases h : p = k
  · subst h
    rw [mapLookup_mapSet_same] at hp
    cases hp
    exact hv
  · rw [mapLookup_mapSet_other m k v p h] at hp
    exact hm p w hp

theorem NonNeg_Add (L : GoLib)
    (hPow : ∀ w : Float64, w.ge 0 = true → (L.Pow w 2).ge 0 = true)
    (hAdd : ∀ w : Float64, w.ge 0 = true → (L.add w 100).ge 0 = true)
    (hSqrt : ∀ w : Float64, w.ge 0 = true → (L.Sqrt w).ge 0 = true)
    (d : Data) (p : String) (hd : NonNeg d.value) : NonNeg (d.Add L p).value := by
  cases h : mapLookup d.value p with
  | none =>
    rw [Add_of_none L d p h]
    exact NonNeg_mapSet d.value p 0 hd (by decide)
  | some w =>
    rw [Add_of_some L d p w h]
    exact NonNeg_mapSet d.value p _ hd (hSqrt _ (hAdd _ (hPow _ (hd p w h))))

theorem NonNeg_loadLines (L : GoLib) (lines : List (List Char))
    (hparse : ∀ line ∈ lines, (L.ParseFloat (weightField line)).1.ge 0 = true)
    (d d' : Data) (hd : NonNeg d.value) (h : lines.foldlM (loadLine L) d = some d') :
    NonNeg d'.value := by
  induction lines generalizing d with
  | nil =>
    simp only [List.foldlM_nil] at h
    cases h
    exact hd
  | cons line lines ih =>
    rw [List.foldlM_cons] at h
    cases hl : loadLine L d line with
    | none => rw [hl] at h; cases h
    | some d1 =>
      rw [hl] at h
      have hw := hparse line (List.mem_cons_self _ _)
      have hd1 : NonNeg d1.value := by
        unfold loadLine at hl
        unfold weightField at hw
        split at hl
        · rename_i s0 s1 rest heq
          rw [heq] at hw
          cases hl
          exact NonNeg_mapSet d.value _ _ hd hw
        · cases hl
      exact ih (fun l hl' => hparse l (List.mem_cons_of_mem _ hl')) d1 hd1 h

/-- C8 (counterexample): the file `-5.000,/a` loads, with no `Add` after it,
into a store in which `/a` has the weight -5, which is not `>= 0`. -/
theorem weights_nonneg_fails_on_negative_file :
    Data.Load refLib "-5.000,/a\n" Data.empty = some ⟨[("/a", Float64.fin (-5))], 10⟩ ∧
    mapLookup ([].foldl (Data.Add refLib) ⟨[("/a", Float64.fin (-5))], 10⟩).value "/a" =
      some (Float64.fin (-5)) ∧
    (Float64.fin (-5)).ge 0 = false := by
  decide!

/-- C8 (amended): when the library keeps `Pow w 2`, `w + 100` and `Sqrt w`
`>= 0` for `w >= 0`, every store reached from the empty store by `Load` of a
file content in which every weight field parses to a value `>= 0`, followed
by any sequence of `Add` calls, has all weights `>= 0`. -/
theorem weights_nonneg_of_nonneg_file (L : GoLib)
    (hPow : ∀ w : Float64, w.ge 0 = true → (L.Pow w 2).ge 0 = true)
    (hAdd : ∀ w : Float64, w.ge 0 = true → (L.add w 100).ge 0 = true)
    (hSqrt : ∀ w : Float64, w.ge 0 = true → (L.Sqrt w).ge 0 = true)
    (content : String)
    (hparse : ∀ line ∈ fileLines content, (L.ParseFloat (weightField line)).1.ge 0 = true)
    (adds : List String) (d0 : Data)
    (hload : Data.Load L content Data.empty = some d0) :
    ∀ p w, mapLookup (adds.foldl (Data.Add L) d0).value p = some w → w.ge 0 = true := by
  have h0 : NonNeg d0.value := by
    rw [Load_eq_foldlM] at hload
    refine NonNeg_loadLines L (fileLines content) hparse _ d0 ?_ hload
    intro p w hp
    simp [Data.empty, mapLookup] at hp
  suffices h : ∀ (adds : List String) (d : Data), NonNeg d.value →
      NonNeg (adds.foldl (Data.Add L) d).value from h adds d0 h0
  intro adds
  induction adds with
  | nil => intro d hd; exact hd
  | cons a adds ih =>
    intro d hd
    rw [List.foldl_cons]
    exact ih (d.Add L a) (NonNeg_Add L hPow hAdd hSqrt d a hd)

theorem Float64.fin_ge_zero (q : ℚ) : (Float64.fin q).ge 0 = true ↔ 0 ≤ q := by
  show decide (((0 : Nat) : ℚ) ≤ q) = true ↔ 0 ≤ q
  simp

theorem refPow_nonneg (w : Float64) (h : w.ge 0 = true) : (refPow w 2).ge 0 = true := by
  cases w with
  | nan => cases h
  | ninf => cases h
  | pinf => rfl
  | fin q =>
    have h2 : refPow (Float64.fin q) 2 = Float64.fin (q * q) := by
      show (if ((2 : Nat) : ℚ) = 2 then Float64.fin (q * q) else Float64.nan) = _
      simp
    rw [h2, Float64.fin_ge_zero]
    exact mul_self_nonneg q

theorem refAdd_nonneg (w : Float64) (h : w.ge 0 = true) : (refAdd w 100).ge 0 = true := by
  cases w with
  | nan => cases h
  | ninf => cases h
  | pinf => rfl
  | fin q =>
    rw [Float64.fin_ge_zero] at h
    show (Float64.fin (q + ((100 : Nat) : ℚ))).ge 0 = true
    rw [Float64.fin_ge_zero]
    positivity

theorem refSqrt_nonneg (w : Float64) (h : w.ge 0 = true) : (refSqrt w).ge 0 = true := by
  cases w with
  | nan => cases h
  | ninf => cases h
  | pinf => rfl
  | fin q =>
    rw [Float64.fin_ge_zero] at h
    unfold refSqrt
    simp only [not_lt.mpr h, if_false]
    split <;> rw [Float64.fin_ge_zero] <;> positivity

/-- C8 (witness): the file of the test followed by the `Add`s of
`TestDataAdd`, with the reference library. -/
theorem weights_nonneg_of_nonneg_file_witness :
    mapLookup (["add_new_dir", "add_new_dir"].foldl (Data.Add refLib) testStore).value
      "add_new_dir" = some (Float64.fin 10) ∧ (Float64.fin 10).ge 0 = true :=
  ⟨by decide!,
    weights_nonneg_of_nonneg_file refLib refPow_nonneg refAdd_nonneg refSqrt_nonneg
      testDataContent (by decide!) ["add_new_dir", "add_new_dir"] testStore (by decide!)
      "add_new_dir" (Float64.fin 10) (by decide!)⟩

/-! ## Order of enumeration -/

theorem mapLookup_eq_some_iff_mem (m : List (String × Float64))
    (hnd : (m.map Prod.fst).Nodup) (k : String) (v : Float64) :
    mapLookup m k = some v ↔ (k, v) ∈ m := by
  induction m with
  | nil => simp [mapLookup]
  | cons kv m ih =>
    obtain ⟨k', v'⟩ := kv
    rw [List.map_cons, List.nodup_cons] at hnd
    by_cases hk : k' = k
    · subst hk
      have hnot : (k', v) ∉ m := fun hmem => hnd.1 (List.mem_map.mpr ⟨(k', v), hmem, rfl⟩)
      simp [mapLookup, hnot, eq_comm]
    · simp [mapLookup, hk, ih hnd.2, Ne.symm hk]

theorem mapLookup_perm (m1 m2 : List (String × Float64)) (hperm : m1.Perm m2)
    (hnd : (m1.map Prod.fst).Nodup) (k : String) : mapLookup m1 k = mapLookup m2 k := by
  have hkeys : (m1.map Prod.fst).Perm (m2.map Prod.fst) := hperm.map _
  have hnd2 : (m2.map Prod.fst).Nodup := hkeys.nodup_iff.mp hnd
  cases h : mapLookup m2 k with
  | none =>
    rw [mapLookup_eq_none_iff] at h ⊢
    exact fun hmem => h (hkeys.mem_iff.mp hmem)
  | some v =>
    rw [mapLookup_eq_some_iff_mem m2 hnd2] at h
    rw [mapLookup_eq_some_iff_mem m1 hnd]
    exact hperm.mem_iff.mpr h

/-! ## Selection on two rankings of the same candidates -/

theorem Float64.gt_of_not_gt_of_ne {a b : Float64} (ha : a ≠ Float64.nan)
    (hb : b ≠ Float64.nan) (hne : a ≠ b) (h : b.gt a = false) : a.gt b = true := by
  cases a <;> cases b <;> simp_all [Float64.gt]
  exact lt_of_le_of_ne h (Ne.symm hne)

/-- With a maximum `M` above the running maximum that no candidate exceeds,
the loop ends on the first candidate of weight `M`. -/
theorem foldl_matchStep_first_of_not_gt (data : Data) (M : Float64) (l : List FuzzyMatch)
    (st : String × Float64) (hst : M.gt st.2 = true)
    (hex : ∃ m ∈ l, data.get m.Str = M)
    (hmax : ∀ m ∈ l, (data.get m.Str).gt M = false) :
    (l.find? (fun m => decide (data.get m.Str = M))).map FuzzyMatch.Str =
      some (l.foldl (matchStep data) st).1 := by
  induction l generalizing st with
  | nil => obtain ⟨m, hm, _⟩ := hex; cases hm
  | cons m l ih =>
    rw [List.foldl_cons]
    by_cases hm : data.get m.Str = M
    · have hstep : matchStep data st m = (m.Str, M) := by
        simp [matchStep, hm, hst]
      rw [hstep, foldl_matchStep_of_not_gt]
      · simp [List.find?, hm]
      · intro m2 hm2
        exact hmax m2 (List.mem_cons_of_mem _ hm2)
    · have hst2 : M.gt (matchStep data st m).2 = true := by
        unfold matchStep
        by_cases hc : (data.get m.Str).gt st.2 = true
        · have hgt : M.gt (data.get m.Str) = true :=
            Float64.gt_of_not_gt_of_ne (Float64.ne_nan_of_gt hst) (Float64.ne_nan_of_gt hc)
              (Ne.symm hm) (hmax m (List.mem_cons_self _ _))
          simp [hc, hgt]
        · simp [hc, hst]
      have hex2 : ∃ m2 ∈ l, data.get m2.Str = M := by
        obtain ⟨m2, hm2, hw⟩ := hex
        rcases List.mem_cons.mp hm2 with rfl | hin
        · exact absurd hw hm
        · exact ⟨m2, hin, hw⟩
      rw [List.find?_cons_of_neg _ (by simpa using hm)]
      exact ih (matchStep data st m) hst2 hex2
        (fun m2 hm2 => hmax m2 (List.mem_cons_of_mem _ hm2))

/-- In a list ordered by `r`, the first element that satisfies `p` is related
to every other element that satisfies `p`. -/
theorem find?_pairwise {α : Type} (r : α → α → Prop) (p : α → Bool) (l : List α)
    (hl : l.Pairwise r) (a : α) (ha : l.find? p = some a) :
    ∀ b ∈ l, p b = true → b = a ∨ r a b := by
  induction l with
  | nil => cases ha
  | cons x xs ih =>
    rw [List.pairwise_cons] at hl
    intro b hb hpb
    by_cases hx : p x = true
    · rw [List.find?_cons_of_pos _ hx] at ha
      cases ha
      rcases List.mem_cons.mp hb with rfl | hin
      · exact Or.inl rfl
      · exact Or.inr (hl.1 b hin)
    · rw [List.find?_cons_of_neg _ hx] at ha
      rcases List.mem_cons.mp hb with rfl | hin
      · exact absurd hpb hx
      · exact ih hl.2 ha b hin hpb

/-- Two rankings of the same candidates carry the same scores at the same
ranks. -/
theorem scores_eq_of_perm (S1 S2 : List FuzzyMatch) (hperm : S1.Perm S2)
    (hs1 : S1.Pairwise (fun a b => b.Score ≤ a.Score))
    (hs2 : S2.Pairwise (fun a b => b.Score ≤ a.Score)) :
    S1.map FuzzyMatch.Score = S2.map FuzzyMatch.Score := by
  apply List.eq_of_perm_of_sorted (hperm.map _) (r := fun x y : Int => x ≥ y)
  · exact List.pairwise_map.mpr hs1
  · exact List.pairwise_map.mpr hs2

theorem mem_take_or_drop {α : Type} (n : Nat) (l : List α) (a : α) (h : a ∈ l) :
    a ∈ l.take n ∨ a ∈ l.drop n := by
  rw [← List.take_append_drop n l] at h
  exact List.mem_append.mp h

/-- The loop selects the same path on the first ten of two rankings of the
same candidates, when in the first ranking no other candidate of the first
ten has the score and the weight of the one selected, and every candidate
after the tenth that has the score of one of the first ten has not the score
of the one selected and no weight above the maximum. -/
theorem foldl_matchStep_rankings (data : Data) (S1 S2 : List FuzzyMatch)
    (hperm : S1.Perm S2)
    (hs1 : S1.Pairwise (fun a b => b.Score ≤ a.Score))
    (hs2 : S2.Pairwise (fun a b => b.Score ≤ a.Score))
    (htie : ∀ a ∈ S1.take 10, ∀ b ∈ S1.take 10,
      a.Str = ((S1.take 10).foldl (matchStep data) (".", 0)).1 →
      (data.get a.Str).gt 0 = true → a.Score = b.Score →
      data.get a.Str = data.get b.Str → a.Str = b.Str)
    (hcut : ∀ b ∈ S1.drop 10, (∃ a ∈ S1.take 10, a.Score = b.Score) →
      (data.get b.Str).gt ((S1.take 10).foldl (matchStep data) (".", 0)).2 = false ∧
      ∀ a ∈ S1.take 10, a.Str = ((S1.take 10).foldl (matchStep data) (".", 0)).1 →
        (data.get a.Str).gt 0 = true → a.Score ≠ b.Score) :
    ((S1.take 10).foldl (matchStep data) (".", 0)).1 =
      ((S2.take 10).foldl (matchStep data) (".", 0)).1 := by
  have hscores := scores_eq_of_perm S1 S2 hperm hs1 hs2
  have htake : (S2.take 10).map FuzzyMatch.Score = (S1.take 10).map FuzzyMatch.Score := by
    rw [List.map_take, List.map_take, hscores]
  have hdrop : (S2.drop 10).map FuzzyMatch.Score = (S1.drop 10).map FuzzyMatch.Score := by
    rw [List.map_drop, List.map_drop, hscores]
  have hsplit1 : (S1.take 10 ++ S1.drop 10).Pairwise (fun a b => b.Score ≤ a.Score) := by
    rw [List.take_append_drop]; exact hs1
  have hcross : ∀ a ∈ S1.take 10, ∀ b ∈ S1.drop 10, b.Score ≤ a.Score :=
    (List.pairwise_append.mp hsplit1).2.2
  have hT1 : (S1.take 10).Pairwise (fun a b => b.Score ≤ a.Score) :=
    hs1.sublist (List.take_sublist _ _)
  have hT2 : (S2.take 10).Pairwise (fun a b => b.Score ≤ a.Score) :=
    hs2.sublist (List.take_sublist _ _)
  -- a candidate of the second first ten is in the first one, or after it with a shared score
  have hA : ∀ m ∈ S2.take 10, m ∈ S1.take 10 ∨
      (m ∈ S1.drop 10 ∧ ∃ a ∈ S1.take 10, a.Score = m.Score) := by
    intro m hm
    have hmS1 : m ∈ S1 := hperm.mem_iff.mpr (List.mem_of_mem_take hm)
    rcases mem_take_or_drop 10 S1 m hmS1 with h | h
    · exact Or.inl h
    · refine Or.inr ⟨h, ?_⟩
      have : m.Score ∈ (S1.take 10).map FuzzyMatch.Score := by
        rw [← htake]; exact List.mem_map.mpr ⟨m, hm, rfl⟩
      obtain ⟨a, ha, hab⟩ := List.mem_map.mp this
      exact ⟨a, ha, hab⟩
  have hmax1 := foldl_matchStep_max data (S1.take 10) (".", 0)
  have hB : ∀ m ∈ S2.take 10,
      (data.get m.Str).gt ((S1.take 10).foldl (matchStep data) (".", 0)).2 = false := by
    intro m hm
    rcases hA m hm with h | ⟨h, hex⟩
    · exact hmax1 m h
    · exact (hcut m h hex).1
  rcases foldl_matchStep_cases data (S1.take 10) (".", 0) with hst | ⟨m1, hm1, heq, hgt⟩
  · rw [hst] at hB ⊢
    rw [foldl_matchStep_of_not_gt data (S2.take 10) _ hB]
  · have hres1 : ((S1.take 10).foldl (matchStep data) (".", 0)).1 = m1.Str := by rw [heq]
    have hres2 : ((S1.take 10).foldl (matchStep data) (".", 0)).2 = data.get m1.Str := by
      rw [heq]
    rw [hres2] at hmax1 hB
    -- the first candidate of maximal weight in the first ranking is the one selected
    have e1 := foldl_matchStep_first_of_not_gt data (data.get m1.Str) (S1.take 10) (".", 0)
      hgt ⟨m1, hm1, rfl⟩ hmax1
    cases hf1 : (S1.take 10).find? (fun m => decide (data.get m.Str = data.get m1.Str)) with
    | none => rw [hf1] at e1; cases e1
    | some a1 =>
      rw [hf1] at e1
      have r1 : a1.Str = ((S1.take 10).foldl (matchStep data) (".", 0)).1 :=
        Option.some.inj e1
      have hw1 : data.get a1.Str = data.get m1.Str := by
        simpa using List.find?_some hf1
      have ha1 : a1 ∈ S1.take 10 := List.mem_of_find?_eq_some hf1
      have hgt1 : (data.get a1.Str).gt 0 = true := by rw [hw1]; exact hgt
      -- it is among the first ten of the second ranking
      have ha1T2 : a1 ∈ S2.take 10 := by
        rcases mem_take_or_drop 10 S2 a1
          (hperm.mem_iff.mp (List.mem_of_mem_take ha1)) with h | h
        · exact h
        · exfalso
          have : a1.Score ∈ (S1.drop 10).map FuzzyMatch.Score := by
            rw [← hdrop]; exact List.mem_map.mpr ⟨a1, h, rfl⟩
          obtain ⟨b, hb, hbs⟩ := List.mem_map.mp this
          exact (hcut b hb ⟨a1, ha1, hbs.symm⟩).2 a1 ha1 r1 hgt1 hbs.symm
      have e2 := foldl_matchStep_first_of_not_gt data (data.get m1.Str) (S2.take 10)
        (".", 0) hgt ⟨a1, ha1T2, hw1⟩ hB
      cases hf2 : (S2.take 10).find?
          (fun m => decide (data.get m.Str = data.get m1.Str)) with
      | none => rw [hf2] at e2; cases e2
      | some a2 =>
        rw [hf2] at e2
        have r2 : a2.Str = ((S2.take 10).foldl (matchStep data) (".", 0)).1 :=
          Option.some.inj e2
        have hw2 : data.get a2.Str = data.get m1.Str := by
          simpa using List.find?_some hf2
        have ha2 : a2 ∈ S2.take 10 := List.mem_of_find?_eq_some hf2
        rw [← r1, ← r2]
        have o2 : a1 = a2 ∨ a1.Score ≤ a2.Score :=
          find?_pairwise _ _ (S2.take 10) hT2 a2 hf2 a1 ha1T2 (by simpa using hw1)
        rcases o2 with h | h2
        · rw [h]
        · rcases hA a2 ha2 with hin | ⟨hout, hex⟩
          · have o1 : a2 = a1 ∨ a2.Score ≤ a1.Score :=
              find?_pairwise _ _ (S1.take 10) hT1 a1 hf1 a2 hin (by simpa using hw2)
            rcases o1 with h | h1
            · rw [h]
            · exact htie a1 ha1 a2 hin r1 hgt1 (le_antisymm h2 h1) (hw1.trans hw2.symm)
          · exfalso
            have hle : a2.Score ≤ a1.Score := hcross a1 ha1 a2 hout
            exact (hcut a2 hout hex).2 a1 ha1 r1 hgt1 (le_antisymm h2 hle)

theorem fuzzyFind_sorted (eqv : Char → Char → Bool) (score : String → String → Int)
    (q : String) (paths : List String) :
    (fuzzyFind eqv score q paths).Pairwise (fun a b => b.Score ≤ a.Score) := by
  haveI : IsTotal FuzzyMatch (fun a b => b.Score ≤ a.Score) :=
    ⟨fun a b => le_total b.Score a.Score⟩
  haveI : IsTrans FuzzyMatch (fun a b => b.Score ≤ a.Score) :=
    ⟨fun a b c hab hbc => le_trans hbc hab⟩
  exact List.sorted_insertionSort (fun a b : FuzzyMatch => b.Score ≤ a.Score) _

theorem fuzzyFind_perm_of_perm (eqv : Char → Char → Bool) (score : String → String → Int)
    (q : String) (paths1 paths2 : List String) (hperm : paths1.Perm paths2) :
    (fuzzyFind eqv score q paths1).Perm (fuzzyFind eqv score q paths2) := by
  unfold fuzzyFind
  refine (List.perm_insertionSort _ _).trans ?_
  refine List.Perm.trans ?_ (List.perm_insertionSort _ _).symm
  exact (hperm.filter _).map _

/-! ## Claims about the order of enumeration -/

/-- C10 (counterexample): two enumerations of one mapping make `Match` return
two different paths, first with `/ab/x` and `/ab/y`, both of weight 10 and of
equal score for the query `ab`, then with eleven paths of equal score and of
weights 1 to 11, where the enumeration decides which ten are compared. -/
theorem Match_depends_on_enumeration :
    (List.Perm [("/ab/x", Float64.fin 10), ("/ab/y", Float64.fin 10)]
        [("/ab/y", Float64.fin 10), ("/ab/x", Float64.fin 10)] ∧
      Match (fuzzyFind exactEq lengthScore) "ab"
        ⟨[("/ab/x", Float64.fin 10), ("/ab/y", Float64.fin 10)], 0⟩ = "/ab/x" ∧
      Match (fuzzyFind exactEq lengthScore) "ab"
        ⟨[("/ab/y", Float64.fin 10), ("/ab/x", Float64.fin 10)], 0⟩ = "/ab/y") ∧
    (List.Perm elevenPaths elevenPaths.reverse ∧
      Match (fuzzyFind exactEq lengthScore) "ab" ⟨elevenPaths, 0⟩ = "/ab/9" ∧
      Match (fuzzyFind exactEq lengthScore) "ab" ⟨elevenPaths.reverse, 0⟩ = "/ab/a") :=
  ⟨⟨List.Perm.swap _ _ _, by decide!, by decide!⟩,
    ⟨(List.reverse_perm _).symm, by decide!, by decide!⟩⟩

/-- C10 (amended): for every query and every store, with the matcher the
specification describes (any character comparison, any score, ranking by a
stable sort), two enumerations of the same path-to-weight mapping give the
same returned string, provided that in the ranking of one of them no other
candidate among the first ten has both the score and the stored weight of
the candidate returned, and every candidate ranked 11th or later whose score
is that of one of the first ten has a score other than that of the candidate
returned and no stored weight above the maximum the loop ends with. -/
theorem Match_enumeration_independent (eqv : Char → Char → Bool)
    (score : String → String → Int) (q : String) (d1 d2 : Data)
    (hperm : d1.value.Perm d2.value) (hnd : d1.GetPaths.Nodup)
    (htie : ∀ a ∈ topTen (fuzzyFind eqv score) q d1,
      ∀ b ∈ topTen (fuzzyFind eqv score) q d1,
      a.Str = Match (fuzzyFind eqv score) q d1 → (d1.get a.Str).gt 0 = true →
      a.Score = b.Score → d1.get a.Str = d1.get b.Str → a.Str = b.Str)
    (hcut : ∀ b ∈ (fuzzyFind eqv score q d1.GetPaths).drop 10,
      (∃ a ∈ topTen (fuzzyFind eqv score) q d1, a.Score = b.Score) →
      (d1.get b.Str).gt (maxWeights (fuzzyFind eqv score) q d1) = false ∧
      ∀ a ∈ topTen (fuzzyFind eqv score) q d1,
        a.Str = Match (fuzzyFind eqv score) q d1 → (d1.get a.Str).gt 0 = true →
        a.Score ≠ b.Score) :
    Match (fuzzyFind eqv score) q d1 = Match (fuzzyFind eqv score) q d2 := by
  have hstep : matchStep d2 = matchStep d1 := by
    funext st m
    have hget : d1.get m.Str = d2.get m.Str := by
      unfold Data.get
      rw [mapLookup_perm d1.value d2.value hperm hnd]
    simp only [matchStep, hget]
  have hs1 := fuzzyFind_sorted eqv score q d1.GetPaths
  have hs2 := fuzzyFind_sorted eqv score q d2.GetPaths
  have hfind := fuzzyFind_perm_of_perm eqv score q d1.GetPaths d2.GetPaths (hperm.map _)
  rw [Match_eq_foldl] at htie hcut
  rw [Match_eq_foldl, Match_eq_foldl, hstep]
  exact foldl_matchStep_rankings d1 _ _ hfind hs1 hs2 htie hcut

/-- C10 (witness): `/ab/x` of weight 10 and `/ab/y` of weight 20 have the
same score for the query `ab`, and both enumerations return `/ab/y`; with
`/ab` of weight 100 ahead of eleven paths of equal score, both enumerations
return `/ab`. -/
theorem Match_enumeration_independent_witness :
    (Match (fuzzyFind exactEq lengthScore) "ab"
        ⟨[("/ab/x", Float64.fin 10), ("/ab/y", Float64.fin 20)], 0⟩ = "/ab/y" ∧
      Match (fuzzyFind exactEq lengthScore) "ab"
          ⟨[("/ab/x", Float64.fin 10), ("/ab/y", Float64.fin 20)], 0⟩ =
        Match (fuzzyFind exactEq lengthScore) "ab"
          ⟨[("/ab/y", Float64.fin 20), ("/ab/x", Float64.fin 10)], 0⟩) ∧
    (Match (fuzzyFind exactEq lengthScore) "ab"
        ⟨("/ab", Float64.fin 100) :: elevenPaths, 0⟩ = "/ab" ∧
      Match (fuzzyFind exactEq lengthScore) "ab"
          ⟨("/ab", Float64.fin 100) :: elevenPaths, 0⟩ =
        Match (fuzzyFind exactEq lengthScore) "ab"
          ⟨(("/ab", Float64.fin 100) :: elevenPaths).reverse, 0⟩) :=
  ⟨⟨by decide!,
      Match_enumeration_independent exactEq lengthScore "ab"
        ⟨[("/ab/x", Float64.fin 10), ("/ab/y", Float64.fin 20)], 0⟩
        ⟨[("/ab/y", Float64.fin 20), ("/ab/x", Float64.fin 10)], 0⟩
        (List.Perm.swap _ _ _) (by decide!) (by decide!) (by decide!)⟩,
    ⟨by decide!,
      Match_enumeration_independent exactEq lengthScore "ab"
        ⟨("/ab", Float64.fin 100) :: elevenPaths, 0⟩
        ⟨(("/ab", Float64.fin 100) :: elevenPaths).reverse, 0⟩
        (List.reverse_perm _).symm (by decide!) (by decide!) (by decide!)⟩⟩

/-! ## Persist and load -/

theorem Close_data_aux (L : GoLib) (l : List (String × Float64)) (acc : String) :
    (l.foldl (fun out kv => out ++ (L.Sprintf3 kv.2 ++ "," ++ kv.1 ++ "\n")) acc).data =
      acc.data ++ l.flatMap (fun kv => lineChars L kv ++ ['\n']) := by
  induction l generalizing acc with
  | nil => simp
  | cons kv l ih =>
    rw [List.foldl_cons, ih]
    have h1 : (",": String).data = [','] := rfl
    have h2 : ("\n": String).data = ['\n'] := rfl
    simp [String.data_append, lineChars, h1, h2]

theorem Close_data (L : GoLib) (d : Data) :
    (Data.Close L d).data = List.replicate d.fp (Char.ofNat 0) ++
      d.value.flatMap (fun kv => lineChars L kv ++ ['\n']) := by
  unfold Data.Close
  rw [Close_data_aux]

theorem splitChars_line (l rest : List Char) (hl : '\n' ∉ l) :
    splitChars '\n' (l ++ '\n' :: rest) = l :: splitChars '\n' rest := by
  induction l with
  | nil => simp [splitChars]
  | cons c l ih =>
    have hc : c ≠ '\n' := fun h => hl (h ▸ List.mem_cons_self _ _)
    have hl' : '\n' ∉ l := fun h => hl (List.mem_cons_of_mem _ h)
    rw [List.cons_append, splitChars, if_neg hc, ih hl']

theorem splitChars_lines (ls : List (List Char)) (hls : ∀ l ∈ ls, '\n' ∉ l) :
    splitChars '\n' (ls.flatMap (fun l => l ++ ['\n'])) = ls ++ [[]] := by
  induction ls with
  | nil => rfl
  | cons l ls ih =>
    rw [List.flatMap_cons, List.append_assoc, List.singleton_append,
      splitChars_line l _ (hls l (List.mem_cons_self _ _)),
      ih (fun l' hl' => hls l' (List.mem_cons_of_mem _ hl'))]
    rfl

theorem splitFirst_comma (a b : List Char) (ha : ',' ∉ a) :
    splitFirst ',' (a ++ ',' :: b) = [a, b] := by
  induction a with
  | nil => simp [splitFirst]
  | cons c a ih =>
    have hc : c ≠ ',' := fun h => ha (h ▸ List.mem_cons_self _ _)
    have ha' : ',' ∉ a := fun h => ha (List.mem_cons_of_mem _ h)
    rw [List.cons_append, splitFirst, if_neg hc, ih ha']

theorem loadLine_lineChars (L : GoLib) (d : Data) (kv : String × Float64)
    (hfmt : ',' ∉ (L.Sprintf3 kv.2).data) :
    loadLine L d (lineChars L kv) =
      some ⟨mapSet d.value kv.1 (L.ParseFloat (L.Sprintf3 kv.2)).1, d.fp⟩ := by
  unfold loadLine lineChars
  rw [splitFirst_comma _ _ hfmt]

theorem foldlM_loadLine (L : GoLib) (entries : List (String × Float64))
    (hfmt : ∀ kv ∈ entries, ',' ∉ (L.Sprintf3 kv.2).data) (d : Data) :
    (entries.map (lineChars L)).foldlM (loadLine L) d =
      some ⟨entries.foldl
        (fun m kv => mapSet m kv.1 (L.ParseFloat (L.Sprintf3 kv.2)).1) d.value, d.fp⟩ := by
  induction entries generalizing d with
  | nil => rfl
  | cons kv entries ih =>
    rw [List.map_cons, List.foldlM_cons,
      loadLine_lineChars L d kv (hfmt kv (List.mem_cons_self _ _))]
    simp only [Option.some_bind, List.foldl_cons]
    exact ih (fun kv' hkv' => hfmt kv' (List.mem_cons_of_mem _ hkv')) _

theorem foldl_mapSet_fresh (g : Float64 → Float64) (entries acc : List (String × Float64))
    (hnd : (acc.map Prod.fst ++ entries.map Prod.fst).Nodup) :
    entries.foldl (fun m kv => mapSet m kv.1 (g kv.2)) acc =
      acc ++ entries.map (fun kv => (kv.1, g kv.2)) := by
  induction entries generalizing acc with
  | nil => simp
  | cons kv entries ih =>
    have hfresh : mapLookup acc kv.1 = none := by
      rw [mapLookup_eq_none_iff]
      intro hmem
      have := (List.nodup_append.mp hnd).2.2
      exact this hmem (List.mem_map.mpr ⟨kv, List.mem_cons_self _ _, rfl⟩)
    rw [List.foldl_cons, mapSet_of_none acc kv.1 _ hfresh, ih]
    · simp
    · simpa [List.append_assoc] using hnd

theorem mapLookup_map_snd (g : Float64 → Float64) (m : List (String × Float64))
    (k : String) :
    mapLookup (m.map (fun kv => (kv.1, g kv.2))) k = (mapLookup m k).map g := by
  induction m with
  | nil => rfl
  | cons kv m ih =>
    obtain ⟨k', v'⟩ := kv
    by_cases hk : k' = k
    · simp [mapLookup, hk]
    · simp [mapLookup, hk, ih]

theorem fileLines_Close (L : GoLib) (d : Data) (hfp : d.fp = 0)
    (hnl : ∀ kv ∈ d.value, '\n' ∉ lineChars L kv) :
    fileLines (Data.Close L d) = d.value.map (lineChars L) := by
  have hflat : (Data.Close L d).data =
      (d.value.map (lineChars L)).flatMap (fun l => l ++ ['\n']) := by
    rw [Close_data, hfp, List.flatMap_map]
    rfl
  have hsplit : splitChars '\n' (Data.Close L d).data = d.value.map (lineChars L) ++ [[]] := by
    rw [hflat]
    apply splitChars_lines
    intro l hl
    obtain ⟨kv, hkv, rfl⟩ := List.mem_map.mp hl
    exact hnl kv hkv
  unfold fileLines
  rw [hsplit]
  simp

/-- Written at offset 0, as for a data file that was new or empty when it
was loaded, the text comes back: for every store `d` whose paths contain no
newline, and every enumeration `written` of it, when the library renders the
weights without a comma or a newline and parses the rendering of a stored
weight `w` back to `round3 w`, `Load` of the content `Close` leaves succeeds
and yields a store with the same paths, each mapped to `round3` of its
weight. -/
theorem Load_Close_at_offset_zero (L : GoLib) (round3 : Float64 → Float64)
    (d written : Data) (hfp : written.fp = 0)
    (hperm : written.value.Perm d.value)
    (hnd : d.GetPaths.Nodup)
    (hnl : ∀ p ∈ d.GetPaths, '\n' ∉ p.data)
    (hfmt : ∀ kv ∈ d.value,
      ',' ∉ (L.Sprintf3 kv.2).data ∧ '\n' ∉ (L.Sprintf3 kv.2).data)
    (hround : ∀ kv ∈ d.value, (L.ParseFloat (L.Sprintf3 kv.2)).1 = round3 kv.2) :
    ∃ d', Data.Load L (Data.Close L written) Data.empty = some d' ∧
      d'.GetPaths.Perm d.GetPaths ∧
      (∀ p w, mapLookup d.value p = some w → mapLookup d'.value p = some (round3 w)) ∧
      (∀ p w, mapLookup d.value p = some w → round3 w = w →
        mapLookup d'.value p = some w) := by
  have hndw : (written.value.map Prod.fst).Nodup := (hperm.map _).nodup_iff.mpr hnd
  have hlines : fileLines (Data.Close L written) = written.value.map (lineChars L) := by
    apply fileLines_Close L written hfp
    intro kv hkv hmem
    have hkv' := hperm.mem_iff.mp hkv
    unfold lineChars at hmem
    rcases List.mem_append.mp hmem with h | h
    · exact (hfmt kv hkv').2 h
    · rcases List.mem_cons.mp h with h | h
      · exact absurd h (by decide)
      · exact hnl kv.1 (List.mem_map.mpr ⟨kv, hkv', rfl⟩) h
  have hload : Data.Load L (Data.Close L written) Data.empty =
      some ⟨written.value.map
          (fun kv => (kv.1, (fun w => (L.ParseFloat (L.Sprintf3 w)).1) kv.2)),
        (Data.Close L written).utf8ByteSize⟩ := by
    rw [Load_eq_foldlM, hlines,
      foldlM_loadLine L written.value (fun kv hkv => (hfmt kv (hperm.mem_iff.mp hkv)).1)]
    have := foldl_mapSet_fresh (fun w => (L.ParseFloat (L.Sprintf3 w)).1) written.value []
      (by simpa using hndw)
    simp only [List.nil_append] at this
    simp only [Data.empty]
    rw [this]
  have hlook : ∀ p w, mapLookup d.value p = some w →
      mapLookup (written.value.map
        (fun kv => (kv.1, (fun w => (L.ParseFloat (L.Sprintf3 w)).1) kv.2))) p =
        some (round3 w) := by
    intro p w hp
    have hmem : (p, w) ∈ d.value := (mapLookup_eq_some_iff_mem d.value hnd p w).mp hp
    have e := mapLookup_map_snd (fun w => (L.ParseFloat (L.Sprintf3 w)).1) written.value p
    rw [mapLookup_perm written.value d.value hperm hndw p, hp] at e
    refine e.trans ?_
    exact congrArg some (hround (p, w) hmem)
  refine ⟨_, hload, ?_, hlook, ?_⟩
  · show (List.map Prod.fst (written.value.map _)).Perm (d.value.map Prod.fst)
    rw [List.map_map]
    exact hperm.map _
  · intro p w hp hw
    rw [hlook p w hp, hw]

/-- C5 (failing input): the data file `10.000,/a` is loaded, nothing is
changed, and `Close` persists the store: the read has left the offset of the
file at 10, `Truncate(0)` does not move it, so the file then holds ten NUL
bytes before the line, and the next `Load` gives `/a` the weight 0, not 10. -/
theorem Load_Close_loses_first_weight :
    Data.Load refLib "10.000,/a\n" Data.empty = some ⟨[("/a", Float64.fin 10)], 10⟩ ∧
    Data.Close refLib ⟨[("/a", Float64.fin 10)], 10⟩ =
      String.mk (List.replicate 10 (Char.ofNat 0)) ++ "10.000,/a\n" ∧
    Data.Load refLib (Data.Close refLib ⟨[("/a", Float64.fin 10)], 10⟩) Data.empty =
      some ⟨[("/a", Float64.fin 0)], 20⟩ := by
  decide!

/-- The run of `TestDataAdd`: after the four `Add`s, when `Close` enumerates
`add_new_dir` first, the reloaded store gives it the weight 0, where the
test expects 10. -/
theorem TestDataAdd_reload :
    mapLookup ((((testStore.Add refLib "add_new_dir").Add refLib "add_new_dir").Add refLib
      "中文目录").Add refLib "中文目录").value "add_new_dir" = some (Float64.fin 10) ∧
    (Data.Load refLib (Data.Close refLib
        ⟨("add_new_dir", Float64.fin 10) :: ("中文目录", Float64.fin 10) :: testStore.value,
          testStore.fp⟩) Data.empty).map (fun d => mapLookup d.value "add_new_dir") =
      some (some (Float64.fin 0)) := by
  decide!

/-- An instance of the round trip at offset 0: a comma inside a path and a
weight with more than three decimals, written in reverse order, with the
reference library: the weight 14.1421356 comes back as 14.142, the weight 10
unchanged. -/
theorem Load_Close_at_offset_zero_example :
    ∃ d2, Data.Load refLib (Data.Close refLib
        ⟨[("add_new_dir", Float64.fin 10), ("/a,b", Float64.fin (141421356 / 10000000))], 0⟩)
        Data.empty = some d2 ∧
      d2.GetPaths.Perm ["/a,b", "add_new_dir"] ∧
      mapLookup d2.value "/a,b" = some (Float64.fin (14142 / 1000)) ∧
      mapLookup d2.value "add_new_dir" = some (Float64.fin 10) := by
  obtain ⟨d2, h1, h2, h3, h4⟩ := Load_Close_at_offset_zero refLib refRound3
    ⟨[("/a,b", Float64.fin (141421356 / 10000000)), ("add_new_dir", Float64.fin 10)], 0⟩
    ⟨[("add_new_dir", Float64.fin 10), ("/a,b", Float64.fin (141421356 / 10000000))], 0⟩
    rfl (List.Perm.swap _ _ _) (by decide!) (by decide!) (by decide!) (by decide!)
  refine ⟨d2, h1, h2, ?_, ?_⟩
  · have := h3 "/a,b" (Float64.fin (141421356 / 10000000)) (by decide!)
    rw [this]
    decide!
  · exact h4 "add_new_dir" (Float64.fin 10) (by decide!) (by decide!)

end Autojump
